import Mathlib

/-!
Shallow embedding of `swift/cli/shard-info.py`.

The tool aggregates per-replica container-database handles into a map
`name → node → broker` and recursively renders a report of the root→shard
hierarchy.  We embed the program faithfully:

* `print(s)` calls are modelled as elements of a `List String` (each element is
  the string passed to one `print` call; the trailing newline that `print`
  appends is left implicit).
* The aggregation map is a Python `defaultdict(dict)`: we model it as an
  association list `List (Name × List (Node × Broker))` in insertion order;
  `ddGet` mirrors `defaultdict.__getitem__`, which inserts an empty entry when
  the key is missing.
* `ContainerBroker` is an external collaborator (the database accessor).  The
  program only reads a fixed set of accessors from it, so a broker is modelled
  as a record of the values those accessors return; the two shard-range query
  shapes used by the program, `get_shard_ranges(include_deleted=True,
  include_own=True, exclude_others=True)` and
  `get_shard_ranges(include_deleted=True)`, are the fields `own_shard_ranges`
  and `shard_ranges`.
* Python's recursion is unbounded; we give the recursive renderer a `fuel`
  argument and prove (`runTop_isSome`) that the canonical fuel chosen by the
  driver embedding always suffices, so fuel exhaustion never occurs.
* The tool is from the Python-2 era of this code base: `dict.items()` there
  returns a snapshot list, so the driver's loop iterates over the entries
  present when the loop starts even though `print_container` may add (empty)
  entries to the same map while the loop runs.
-/

namespace ShardInfo

abbrev Name := String
abbrev Node := Nat

/-- Value of a swift `Timestamp` as the program renders it: its `.isoformat`,
its `.internal` representation, and whether the underlying float is nonzero
(`float(info['delete_timestamp'])` truthiness). -/
structure Ts where
  iso : String
  internal : String
  nonzero : Bool
deriving Repr, DecidableEq

/-- One shard-range record as read from a replica's database, with the fields
the program renders. -/
structure ShardRange where
  lower : String
  upper : String
  object_count : Nat
  bytes_used : Nat
  timestamp : Ts
  meta_timestamp : Ts
  state_text : String
  state_timestamp : Ts
  deleted : Bool
  name : Name
deriving Repr, DecidableEq

/-- One replica's `ContainerBroker`, modelled as the record of values returned
by the accessors `shard-info.py` actually calls on it. -/
structure Broker where
  account : String
  container : String
  is_root_container : Bool
  db_file : String
  db_state_text : String
  object_count : Nat
  bytes_used : Nat
  put_timestamp : Ts
  delete_timestamp : Ts
  sharding_info : String
  /-- result of `get_shard_ranges(include_deleted=True, include_own=True,
  exclude_others=True)` -/
  own_shard_ranges : List ShardRange
  /-- result of `get_shard_ranges(include_deleted=True)` -/
  shard_ranges : List ShardRange
deriving Repr, DecidableEq

/-- The aggregation map `names2nodes : name → node → broker`, in insertion
order. -/
abbrev AggMap := List (Name × List (Node × Broker))

def TAB : String := "    "

/-- Python's `indent_level * TAB`. -/
def indentStr (n : Nat) : String :=
  String.join (List.replicate n TAB)

/-- Right-justification `%Ns` of Python's format operator. -/
def padLeftStr (w : Nat) (s : String) : String :=
  String.mk (List.replicate (w - s.length) ' ') ++ s

/-- Python `repr` of an opaque key, as used by `'%r - %r'` (escaping inside the
key is not modelled). -/
def pyRepr (s : String) : String := "'" ++ s ++ "'"

/-- The `broker_key` function: `'%s/%s' % (broker.account, broker.container)`. -/
def broker_key (b : Broker) : Name :=
  b.account ++ "/" ++ b.container

/-- The `container_type` function. -/
def container_type (b : Broker) : String :=
  if b.is_root_container then "ROOT" else "SHARD"

/-- Plain dictionary lookup with the `defaultdict` default: the entry stored
for `n`, or `[]` when `n` has no entry. -/
def lookupD : AggMap → Name → List (Node × Broker)
  | [], _ => []
  | e :: rest, n => if e.1 = n then e.2 else lookupD rest n

/-- Whether the map has an entry for `n`. -/
def hasKey : AggMap → Name → Bool
  | [], _ => false
  | e :: rest, n => e.1 = n || hasKey rest n

/-- `defaultdict.__getitem__`: returns the entry for `n`, inserting an empty
entry when `n` is missing. -/
def ddGet (m : AggMap) (n : Name) : List (Node × Broker) × AggMap :=
  if hasKey m n then (lookupD m n, m) else ([], m ++ [(n, [])])

/-- Effect of `used_names = used_names or set()` on the value of the local
variable: `None` and the (falsy) empty set are both replaced by a fresh empty
set. -/
def localUsed : Option (List Name) → List Name
  | none => []
  | some u => if u.isEmpty then [] else u

/-- The `print_broker_info` function (one `print` call). -/
def print_broker_info (node : Node) (b : Broker) (indent_level : Nat) : String :=
  let indent := indentStr indent_level
  let deleted_at := if b.delete_timestamp.nonzero then b.delete_timestamp.iso else " - "
  indent ++ b.db_state_text ++ ", objs: " ++ toString b.object_count ++
    ", bytes: " ++ toString b.bytes_used ++ ", put: " ++ b.put_timestamp.iso ++
    ", deleted: " ++ deleted_at ++ " (" ++ toString node ++ ")"

/-- The ERROR annotation emitted by `print_db` on a classification mismatch. -/
def dbErrLine (indent_level : Nat) (expect_type actual_type : String) : String :=
  indentStr indent_level ++ "        ERROR expected " ++ expect_type ++
    " but found " ++ actual_type

/-- The `print_db` function: the db-file line, followed by an ERROR line
exactly when the actual classification differs from the expected one. -/
def print_db (node : Node) (b : Broker) (expect_type : String)
    (indent_level : Nat) : List String :=
  let indent := indentStr indent_level
  let actual_type := container_type b
  [indent ++ b.db_file ++ " (" ++ toString node ++ ")"] ++
    (if actual_type ≠ expect_type then
      [dbErrLine indent_level expect_type actual_type]
    else [])

/-- The `print_shard_range` function (one `print` call). -/
def print_shard_range (node : Node) (sr : ShardRange) (indent_level : Nat) : String :=
  let indent := indentStr indent_level
  let range := pyRepr sr.lower ++ " - " ++ pyRepr sr.upper
  indent ++ padLeftStr 23 range ++ ", objs: " ++ padLeftStr 3 (toString sr.object_count) ++
    ", bytes: " ++ padLeftStr 3 (toString sr.bytes_used) ++
    ", timestamp: " ++ sr.timestamp.iso ++ " (" ++ sr.timestamp.internal ++ ")" ++
    ", modified: " ++ sr.meta_timestamp.iso ++ " (" ++ sr.meta_timestamp.internal ++ ")" ++
    ", " ++ padLeftStr 7 sr.state_text ++ ": " ++ sr.state_timestamp.iso ++
    " (" ++ sr.state_timestamp.internal ++ ")" ++
    ", deleted: " ++ toString (if sr.deleted then 1 else 0) ++
    " (" ++ toString node ++ ") " ++ sr.name

/-- Strict order underlying `sort(key=lambda x: x.deleted)`: `a` sorts strictly
before `b` exactly when `a` is live and `b` is deleted. -/
def srLT (a b : ShardRange) : Bool := !a.deleted && b.deleted

/-- Stable insertion used to model Python's stable `list.sort`: a later element
`x` is placed after every earlier element that is strictly below it and before
the first earlier element that is not. -/
def srInsert (x : ShardRange) : List ShardRange → List ShardRange
  | [] => [x]
  | y :: ys => if srLT y x then y :: srInsert x ys else x :: y :: ys

/-- Python's stable `shard_ranges.sort(key=lambda x: x.deleted)`. -/
def sortByDeleted (l : List ShardRange) : List ShardRange :=
  l.foldr srInsert []

/-- The `print_shard_range_info` function: sort by the deleted flag, then print
each range. -/
def print_shard_range_info (node : Node) (shard_ranges : List ShardRange)
    (indent_level : Nat) : List String :=
  (sortByDeleted shard_ranges).map (fun sr => print_shard_range node sr indent_level)

/-- The `print_sharding_info` function (one `print` call). -/
def print_sharding_info (node : Node) (b : Broker) (indent_level : Nat) : String :=
  indentStr indent_level ++ b.sharding_info ++ " (" ++ toString node ++ ")"

/-- `shard_names.add` on the set modelled as a first-insertion-ordered
duplicate-free list. -/
def insertIfAbsent (l : List Name) (n : Name) : List Name :=
  if n ∈ l then l else l ++ [n]

/-- The `shard_names` set built by `print_container`: every shard-range name
found across all replicas of the identity, without duplicates.  CPython's set
iteration order is unspecified; the embedding fixes the deterministic
first-occurrence order (no claim depends on the order of this set). -/
def collectShardNames (nbs : List (Node × Broker)) : List Name :=
  nbs.foldl (fun acc nb =>
    nb.2.shard_ranges.foldl (fun a sr => insertIfAbsent a sr.name) acc) []

/-- All shard-range names of an entry, with multiplicity (the list the
`shard_names` set is built from). -/
def entryShardNames (nbs : List (Node × Broker)) : List Name :=
  (nbs.map (fun nb => nb.2.shard_ranges.map (fun sr => sr.name))).flatten

/-- Everything `print_container` prints for a first-visit identity before the
`Shards:` header: the name line and the DB-file / Info / Sharding-info /
Own-shard-range / Shard-ranges sections, each section rendered once per
replica. -/
def freshHeader (name : Name) (nbs : List (Node × Broker)) (expect_type : String)
    (indent_level : Nat) : List String :=
  let indent := indentStr indent_level
  (indent ++ "Name: " ++ name) ::
  (indent ++ "DB files:") ::
    ((nbs.map (fun nb => print_db nb.1 nb.2 expect_type (indent_level + 1))).flatten ++
  (indent ++ "Info:") ::
    (nbs.map (fun nb => print_broker_info nb.1 nb.2 (indent_level + 1)) ++
  (indent ++ "Sharding info:") ::
    (nbs.map (fun nb => print_sharding_info nb.1 nb.2 (indent_level + 1)) ++
  (indent ++ "Own shard range:") ::
    ((nbs.map (fun nb => print_shard_range_info nb.1 nb.2.own_shard_ranges (indent_level + 1))).flatten ++
  (indent ++ "Shard ranges:") ::
    ((nbs.map (fun nb => print_shard_range_info nb.1 nb.2.shard_ranges (indent_level + 1))).flatten)))))

mutual

/-- The `print_container` function.  Output is the list of printed strings;
the updated aggregation map (the `defaultdict` lookup may have inserted empty
entries) and the final visited set are returned as well, mirroring the
in-place mutation of the Python objects.  `fuel` bounds the recursion depth;
`none` means fuel ran out (which `runTop_isSome` shows never happens for the
driver's canonical fuel). -/
def print_container (fuel : Nat) (name : Name) (m : AggMap) (expect_type : String)
    (indent_level : Nat) (used_names : Option (List Name)) :
    Option (List String × AggMap × List Name) :=
  match fuel with
  | 0 => none
  | fuel + 1 =>
    let used := localUsed used_names
    let indent := indentStr indent_level
    let lk := ddGet m name
    let node2broker := lk.1
    let m1 := lk.2
    let nameLine := indent ++ "Name: " ++ name
    if name ∈ used then
      some ([nameLine, indent ++ "  (Details already listed)\n"], m1, used)
    else
      let used1 := name :: used
      let shard_names := collectShardNames node2broker
      match print_children fuel shard_names m1 (indent_level + 1) used1 with
      | none => none
      | some (childLines, m2, used2) =>
        some (freshHeader name node2broker expect_type indent_level ++
                (indent ++ "Shards:") :: childLines ++ ["\n"],
              m2, used2)

/-- The `for sr_name in shard_names: print_container(...)` loop at the bottom
of `print_container`: recurse into each child with expected type `SHARD`, one
indent level deeper, threading the map and the (shared, mutated) visited
set. -/
def print_children (fuel : Nat) (names : List Name) (m : AggMap)
    (indent_level : Nat) (used : List Name) :
    Option (List String × AggMap × List Name) :=
  match fuel, names with
  | _, [] => some ([], m, used)
  | 0, _ :: _ => none
  | fuel + 1, c :: rest =>
    match print_container fuel c m "SHARD" indent_level (some used) with
    | none => none
    | some (out1, m1, used1) =>
      match print_children fuel rest m1 indent_level used1 with
      | none => none
      | some (out2, m2, used2) => some (out1 ++ out2, m2, used2)

end

/-- The `expect_root` accumulation in `run`:
`expect_root = broker.is_root_container() or expect_root` over all replicas. -/
def expectRoot (nbs : List (Node × Broker)) : Bool :=
  nbs.foldl (fun acc nb => nb.2.is_root_container || acc) false

/-- The driver's rendering loop over the snapshot of `items()`, threading the
(possibly growing) aggregation map through the top-level `print_container`
calls.  Every top-level call uses the defaults: expected type `ROOT`, indent
0, `used_names=None` (a fresh visited set). -/
def runLoop (fuel : Nat) : List (Name × List (Node × Broker)) → AggMap →
    Option (List String × AggMap)
  | [], m => some ([], m)
  | (name, nbs) :: rest, m =>
    if expectRoot nbs then
      match print_container fuel name m "ROOT" 0 none with
      | none => none
      | some (out, m', _) =>
        match runLoop fuel rest m' with
        | none => none
        | some (out2, m2) => some (out ++ out2, m2)
    else runLoop fuel rest m

/-- The rendering phase of `run`, on an already-collected aggregation map,
with explicit fuel. -/
def run (fuel : Nat) (m : AggMap) : Option (List String × AggMap) :=
  runLoop fuel m m

/-- Every shard-range name occurring anywhere in the map: the universe from
which recursion can discover identities. -/
def shardNameUniverse (m : AggMap) : List Name :=
  (m.map (fun e => entryShardNames e.2)).flatten

/-- Fuel that always suffices for one full rendering phase (see
`runTop_isSome`). -/
def fuelBound (m : AggMap) : Nat :=
  ((shardNameUniverse m).length + 1) * ((shardNameUniverse m).length + 2)

/-- The rendering phase of `run` with its canonical, always-sufficient fuel. -/
def runTop (m : AggMap) : Option (List String × AggMap) :=
  run (fuelBound m) m

/-- Rendering a top-level root entry, as the driver specification describes
it: process exactly the given entries in order, each at depth 0 with a fresh
visited set and expected type `ROOT`.  Used to state that `run` renders
exactly the identities with a root-claiming replica. -/
def renderRoots (fuel : Nat) : List (Name × List (Node × Broker)) → AggMap →
    Option (List String × AggMap)
  | [], m => some ([], m)
  | (name, _) :: rest, m =>
    match print_container fuel name m "ROOT" 0 none with
    | none => none
    | some (out, m', _) =>
      match renderRoots fuel rest m' with
      | none => none
      | some (out2, m2) => some (out ++ out2, m2)

/-- The block `print_container` renders for an identity with no entry in the
map (and no prior visit): its name and the five empty sections, then the
empty `Shards:` section and the closing blank print. -/
def emptyBlock (c : Name) (d : Nat) : List String :=
  let indent := indentStr d
  [indent ++ "Name: " ++ c,
   indent ++ "DB files:",
   indent ++ "Info:",
   indent ++ "Sharding info:",
   indent ++ "Own shard range:",
   indent ++ "Shard ranges:",
   indent ++ "Shards:",
   "\n"]

/-- The keys of an aggregation map are distinct (always true of a Python
dict). -/
def NodupKeys (m : AggMap) : Prop :=
  (m.map (fun e => e.1)).Nodup

instance : DecidableEq (AggMap × List Name) := inferInstance

instance : DecidableEq (List String × AggMap × List Name) := inferInstance

instance : DecidableEq (List String × AggMap) := inferInstance

instance (m : AggMap) : Decidable (NodupKeys m) := by
  unfold NodupKeys; infer_instance

/-! ### The Collector: `collect_brokers` -/

/-- `DATADIR` of the container backend. -/
def DATADIR : String := "containers"

/-- One device entry of the container ring (`c_ring.devs`): its device name
and node id. -/
structure Dev where
  device : String
  id : Nat
deriving Repr, DecidableEq

/-- The external collaborators `collect_brokers` consumes, already resolved
for one configuration source: the `devices` root from the replicator config,
the container ring's device list, `os.path.isdir`, `roundrobin_datadirs`
(returning `(part, object_file, node_id)` triples), and the
`ContainerBroker` constructor (here: the handle the database accessor
produces for a path). -/
structure CollectEnv where
  devicesRoot : String
  devs : List Dev
  isDir : String → Bool
  walk : List (String × Nat) → List (Nat × String × Nat)
  openBroker : String → Broker

/-- `os.path.join(root, node['device'], DATADIR)`. -/
def datadirOf (env : CollectEnv) (d : Dev) : String :=
  env.devicesRoot ++ "/" ++ d.device ++ "/" ++ DATADIR

/-- The `dirs` list built by `collect_brokers`: one `(datadir, node_id)` pair
per ring device whose data directory exists locally, ring order preserved. -/
def collectDirs (env : CollectEnv) : List (String × Nat) :=
  (env.devs.filter (fun d => env.isDir (datadirOf env d))).map
    (fun d => (datadirOf env d, d.id))

/-- In-place update of one node's handle inside an identity's node map
(`[node_id] = broker`: overwrite in place, else append). -/
def innerInsert (nbs : List (Node × Broker)) (node : Node) (b : Broker) :
    List (Node × Broker) :=
  match nbs with
  | [] => [(node, b)]
  | p :: rest => if p.1 = node then (node, b) :: rest else p :: innerInsert rest node b

/-- `names2nodes[broker_key(broker)][node_id] = broker` on the outer
`defaultdict`. -/
def mapInsert (m : AggMap) (name : Name) (node : Node) (b : Broker) : AggMap :=
  match m with
  | [] => [(name, [(node, b)])]
  | e :: rest =>
    if e.1 = name then (name, innerInsert e.2 node b) :: rest
    else e :: mapInsert rest name node b

/-- The `collect_brokers` function.  Returns the pair (the supplied map after
all insertions, the function's return value `brokers`).  The local
`brokers = defaultdict(dict)` is never written to, so the returned object is
the empty map. -/
def collect_brokers (env : CollectEnv) (names2nodes : AggMap) : AggMap × AggMap :=
  let dirs := collectDirs env
  let brokers : AggMap := []
  let res := (env.walk dirs).foldl
    (fun acc t => mapInsert acc (broker_key (env.openBroker t.2.1)) t.2.2
      (env.openBroker t.2.1)) names2nodes
  (res, brokers)

/-- Lookup of one node's handle inside an identity's node map. -/
def innerLookup (nbs : List (Node × Broker)) (node : Node) : Option Broker :=
  match nbs with
  | [] => none
  | p :: rest => if p.1 = node then some p.2 else innerLookup rest node

/-- Contract of the external directory walker: every triple it yields carries
a node id taken from one of the supplied `(datadir, node_id)` pairs. -/
def WalkSound (env : CollectEnv) : Prop :=
  ∀ dirs t, t ∈ env.walk dirs → ∃ p ∈ dirs, t.2.2 = p.2

/-- The environment with one ring device removed (used to state that an
absent device's presence in the ring has no effect). -/
def eraseDev (env : CollectEnv) (d : Dev) : CollectEnv :=
  { env with devs := env.devs.filter (fun x => decide (x ≠ d)) }

/-- Number of names of `univ` not yet visited. -/
def unvis (univ used : List Name) : Nat :=
  (univ.filter (fun x => decide (x ∉ used))).length

/-! ### Concrete fixtures used by the closed example theorems -/

/-- A zero timestamp fixture. -/
def tsZero : Ts := ⟨"", "", false⟩

/-- A live shard range whose shard container is named `a/s`. -/
def srChild : ShardRange := ⟨"", "", 0, 0, tsZero, tsZero, "", tsZero, false, "a/s"⟩

/-- A root-classified broker for `a/r` knowing one child shard range. -/
def bRootW : Broker :=
  ⟨"a", "r", true, "f.db", "st", 0, 0, tsZero, tsZero, "sh", [], [srChild]⟩

/-- A shard-classified broker for `a/r2` with no shard ranges. -/
def bShardW : Broker :=
  ⟨"a", "r2", false, "g.db", "st", 0, 0, tsZero, tsZero, "sh", [], []⟩

/-- A one-root aggregation map whose only child shard name has no entry. -/
def mW : AggMap := [("a/r", [(0, bRootW)])]

/-- A collection environment with one ring device whose data directory is
absent and a walker that yields nothing. -/
def envW : CollectEnv :=
  ⟨"/srv/node", [⟨"d0", 0⟩], fun _ => false, fun _ => [], fun _ => bShardW⟩


/-! ### Basic lemmas about the map operations -/

theorem lookupD_eq_nil_of_not_hasKey {m : AggMap} {n : Name} (h : hasKey m n = false) :
    lookupD m n = [] := by
  induction m with
  | nil => rfl
  | cons e rest ih =>
    simp only [hasKey, Bool.or_eq_false_iff, decide_eq_false_iff_not] at h
    simp only [lookupD, if_neg h.1]
    exact ih h.2

theorem ddGet_fst (m : AggMap) (n : Name) : (ddGet m n).1 = lookupD m n := by
  unfold ddGet
  split
  · rfl
  · next h =>
    rw [lookupD_eq_nil_of_not_hasKey (Bool.of_not_eq_true h)]

theorem lookupD_append_empties {m new : AggMap} (hnew : ∀ p ∈ new, p.2 = [])
    (x : Name) : lookupD (m ++ new) x = lookupD m x := by
  induction m with
  | nil =>
    simp only [List.nil_append, lookupD]
    induction new with
    | nil => rfl
    | cons e rest ih =>
      simp only [lookupD]
      split
      · exact hnew e (by simp)
      · exact ih (fun p hp => hnew p (by simp [hp]))
  | cons e rest ih =>
    simp only [List.cons_append, lookupD]
    split
    · rfl
    · exact ih

theorem ddGet_snd_append (m : AggMap) (n : Name) :
    ∃ new, (ddGet m n).2 = m ++ new ∧ ∀ p ∈ new, p.2 = [] := by
  unfold ddGet
  split
  · exact ⟨[], by simp⟩
  · exact ⟨[(n, [])], rfl, by simp⟩

theorem localUsed_some (u : List Name) : localUsed (some u) = u := by
  cases u <;> simp [localUsed]

/-! ### Unfolding lemmas for `print_container` -/

theorem print_container_zero (name : Name) (m : AggMap) (et : String) (il : Nat)
    (u : Option (List Name)) : print_container 0 name m et il u = none := rfl

theorem print_container_visited {name : Name} {u : Option (List Name)}
    (h : name ∈ localUsed u) (fuel : Nat) (m : AggMap) (et : String) (il : Nat) :
    print_container (fuel + 1) name m et il u =
      some ([indentStr il ++ "Name: " ++ name,
             indentStr il ++ "  (Details already listed)\n"],
            (ddGet m name).2, localUsed u) := by
  rw [print_container]
  simp only [if_pos h]

theorem print_container_fresh {name : Name} {u : Option (List Name)}
    (h : name ∉ localUsed u) (fuel : Nat) (m : AggMap) (et : String) (il : Nat) :
    print_container (fuel + 1) name m et il u =
      match print_children fuel (collectShardNames (lookupD m name)) (ddGet m name).2
          (il + 1) (name :: localUsed u) with
      | none => none
      | some (childLines, m2, used2) =>
        some (freshHeader name (lookupD m name) et il ++
                (indentStr il ++ "Shards:") :: childLines ++ ["\n"], m2, used2) := by
  rw [print_container]
  simp only [if_neg h, ddGet_fst]

theorem print_children_nil (fuel : Nat) (m : AggMap) (il : Nat) (us : List Name) :
    print_children fuel [] m il us = some ([], m, us) := by
  cases fuel <;> rfl

theorem print_children_zero_cons (c : Name) (rest : List Name) (m : AggMap) (il : Nat)
    (us : List Name) : print_children 0 (c :: rest) m il us = none := rfl

theorem print_children_cons (fuel : Nat) (c : Name) (rest : List Name) (m : AggMap)
    (il : Nat) (us : List Name) :
    print_children (fuel + 1) (c :: rest) m il us =
      match print_container fuel c m "SHARD" il (some us) with
      | none => none
      | some (out1, m1, used1) =>
        match print_children fuel rest m1 il used1 with
        | none => none
        | some (out2, m2, used2) => some (out1 ++ out2, m2, used2) := by
  rw [print_children]

/-! ### The rendering phase only appends empty entries to the map -/

/-- Combined induction statement: any completed call of `print_container` or
`print_children` changes the aggregation map only by appending entries whose
node-map is empty (the `defaultdict` insertions for missing names). -/
theorem grow_both (fuel : Nat) :
    (∀ name m et il u o m' us',
      print_container fuel name m et il u = some (o, m', us') →
      ∃ new, m' = m ++ new ∧ ∀ p ∈ new, p.2 = []) ∧
    (∀ names m il us o m' us',
      print_children fuel names m il us = some (o, m', us') →
      ∃ new, m' = m ++ new ∧ ∀ p ∈ new, p.2 = []) := by
  induction fuel with
  | zero =>
    constructor
    · intro name m et il u o m' us' h
      simp [print_container_zero] at h
    · intro names m il us o m' us' h
      cases names with
      | nil =>
        rw [print_children_nil] at h
        obtain ⟨rfl, rfl, rfl⟩ := by simpa using h
        exact ⟨[], by simp⟩
      | cons c rest => simp [print_children_zero_cons] at h
  | succ fuel ih =>
    obtain ⟨ihc, ihl⟩ := ih
    constructor
    · intro name m et il u o m' us' h
      obtain ⟨newd, hd, hde⟩ := ddGet_snd_append m name
      by_cases hv : name ∈ localUsed u
      · rw [print_container_visited hv] at h
        obtain ⟨-, h2, -⟩ := by simpa using h
        exact ⟨newd, by rw [← h2, hd], hde⟩
      · rw [print_container_fresh hv] at h
        revert h
        split
        · intro h; simp at h
        · next childLines m2 used2 heq =>
          intro h
          obtain ⟨-, h2, -⟩ := by simpa using h
          obtain ⟨new2, h2e, h2emp⟩ := ihl _ _ _ _ _ _ _ heq
          refine ⟨newd ++ new2, ?_, ?_⟩
          · rw [← h2, h2e, hd, List.append_assoc]
          · intro p hp
            rcases List.mem_append.1 hp with hp | hp
            · exact hde p hp
            · exact h2emp p hp
    · intro names m il us o m' us' h
      cases names with
      | nil =>
        rw [print_children_nil] at h
        obtain ⟨rfl, rfl, rfl⟩ := by simpa using h
        exact ⟨[], by simp⟩
      | cons c rest =>
        rw [print_children_cons] at h
        revert h
        split
        · intro h; simp at h
        · next out1 m1 used1 heq1 =>
          split
          · intro h; simp at h
          · next out2 m2 used2 heq2 =>
            intro h
            obtain ⟨-, h2, -⟩ := by simpa using h
            obtain ⟨new1, e1, p1⟩ := ihc _ _ _ _ _ _ _ _ heq1
            obtain ⟨new2, e2, p2⟩ := ihl _ _ _ _ _ _ _ heq2
            refine ⟨new1 ++ new2, ?_, ?_⟩
            · rw [← h2, e2, e1, List.append_assoc]
            · intro p hp
              rcases List.mem_append.1 hp with hp | hp
              · exact p1 p hp
              · exact p2 p hp

/-- A completed `print_container` call only appends empty entries to the map;
in particular every lookup (with the `defaultdict` default) is unchanged. -/
theorem print_container_grow {fuel : Nat} {name : Name} {m : AggMap} {et : String}
    {il : Nat} {u : Option (List Name)} {o : List String} {m' : AggMap} {us' : List Name}
    (h : print_container fuel name m et il u = some (o, m', us')) :
    ∃ new, m' = m ++ new ∧ ∀ p ∈ new, p.2 = [] :=
  (grow_both fuel).1 _ _ _ _ _ _ _ _ h

/-- A completed `print_children` call only appends empty entries to the map. -/
theorem print_children_grow {fuel : Nat} {names : List Name} {m : AggMap}
    {il : Nat} {us : List Name} {o : List String} {m' : AggMap} {us' : List Name}
    (h : print_children fuel names m il us = some (o, m', us')) :
    ∃ new, m' = m ++ new ∧ ∀ p ∈ new, p.2 = [] :=
  (grow_both fuel).2 _ _ _ _ _ _ _ h

theorem lookupD_of_print_container {fuel : Nat} {name : Name} {m : AggMap} {et : String}
    {il : Nat} {u : Option (List Name)} {o : List String} {m' : AggMap} {us' : List Name}
    (h : print_container fuel name m et il u = some (o, m', us')) (x : Name) :
    lookupD m' x = lookupD m x := by
  obtain ⟨new, rfl, hemp⟩ := print_container_grow h
  exact lookupD_append_empties hemp x

theorem lookupD_of_print_children {fuel : Nat} {names : List Name} {m : AggMap}
    {il : Nat} {us : List Name} {o : List String} {m' : AggMap} {us' : List Name}
    (h : print_children fuel names m il us = some (o, m', us')) (x : Name) :
    lookupD m' x = lookupD m x := by
  obtain ⟨new, rfl, hemp⟩ := print_children_grow h
  exact lookupD_append_empties hemp x

/-! ### The visited set only grows, and covers everything processed -/

theorem used_both (fuel : Nat) :
    (∀ name m et il u o m' us',
      print_container fuel name m et il u = some (o, m', us') →
      localUsed u ⊆ us' ∧ name ∈ us') ∧
    (∀ names m il us o m' us',
      print_children fuel names m il us = some (o, m', us') →
      us ⊆ us' ∧ ∀ c ∈ names, c ∈ us') := by
  induction fuel with
  | zero =>
    constructor
    · intro name m et il u o m' us' h
      simp [print_container_zero] at h
    · intro names m il us o m' us' h
      cases names with
      | nil =>
        rw [print_children_nil] at h
        obtain ⟨rfl, rfl, rfl⟩ := by simpa using h
        exact ⟨fun x hx => hx, by simp⟩
      | cons c rest => simp [print_children_zero_cons] at h
  | succ fuel ih =>
    obtain ⟨ihc, ihl⟩ := ih
    constructor
    · intro name m et il u o m' us' h
      by_cases hv : name ∈ localUsed u
      · rw [print_container_visited hv] at h
        obtain ⟨-, -, rfl⟩ := by simpa using h
        exact ⟨fun x hx => hx, hv⟩
      · rw [print_container_fresh hv] at h
        revert h
        split
        · intro h; simp at h
        · next childLines m2 used2 heq =>
          intro h
          obtain ⟨-, -, rfl⟩ := by simpa using h
          obtain ⟨hsub, -⟩ := ihl _ _ _ _ _ _ _ heq
          refine ⟨fun x hx => hsub (by simp [hx]), hsub (by simp)⟩
    · intro names m il us o m' us' h
      cases names with
      | nil =>
        rw [print_children_nil] at h
        obtain ⟨rfl, rfl, rfl⟩ := by simpa using h
        exact ⟨fun x hx => hx, by simp⟩
      | cons c rest =>
        rw [print_children_cons] at h
        revert h
        split
        · intro h; simp at h
        · next out1 m1 used1 heq1 =>
          split
          · intro h; simp at h
          · next out2 m2 used2 heq2 =>
            intro h
            obtain ⟨-, -, rfl⟩ := by simpa using h
            obtain ⟨hc1, hcm⟩ := ihc _ _ _ _ _ _ _ _ heq1
            obtain ⟨hl1, hlm⟩ := ihl _ _ _ _ _ _ _ heq2
            rw [localUsed_some] at hc1
            refine ⟨fun x hx => hl1 (hc1 hx), ?_⟩
            intro x hx
            rcases List.mem_cons.1 hx with rfl | hx
            · exact hl1 hcm
            · exact hlm x hx

theorem used_of_print_container {fuel : Nat} {name : Name} {m : AggMap} {et : String}
    {il : Nat} {u : Option (List Name)} {o : List String} {m' : AggMap} {us' : List Name}
    (h : print_container fuel name m et il u = some (o, m', us')) :
    localUsed u ⊆ us' ∧ name ∈ us' :=
  (used_both fuel).1 _ _ _ _ _ _ _ _ h

theorem used_of_print_children {fuel : Nat} {names : List Name} {m : AggMap}
    {il : Nat} {us : List Name} {o : List String} {m' : AggMap} {us' : List Name}
    (h : print_children fuel names m il us = some (o, m', us')) :
    us ⊆ us' ∧ ∀ c ∈ names, c ∈ us' :=
  (used_both fuel).2 _ _ _ _ _ _ _ h

/-! ### The `shard_names` set: union of all replicas' shard-range names -/

theorem mem_insertIfAbsent {l : List Name} {n x : Name} :
    x ∈ insertIfAbsent l n ↔ x ∈ l ∨ x = n := by
  unfold insertIfAbsent
  split
  · next h =>
    constructor
    · exact .inl
    · rintro (hx | rfl)
      · exact hx
      · exact h
  · simp

theorem nodup_insertIfAbsent {l : List Name} (h : l.Nodup) (n : Name) :
    (insertIfAbsent l n).Nodup := by
  unfold insertIfAbsent
  split
  · exact h
  · next hn =>
    simpa using List.Nodup.append h (by simp) (by simpa using fun hx => hn hx)

theorem mem_foldl_insertIfAbsent {xs : List Name} {acc : List Name} {x : Name} :
    x ∈ xs.foldl insertIfAbsent acc ↔ x ∈ acc ∨ x ∈ xs := by
  induction xs generalizing acc with
  | nil => simp
  | cons y ys ih =>
    simp only [List.foldl_cons, ih, mem_insertIfAbsent, List.mem_cons]
    tauto

theorem nodup_foldl_insertIfAbsent {xs : List Name} {acc : List Name} (h : acc.Nodup) :
    (xs.foldl insertIfAbsent acc).Nodup := by
  induction xs generalizing acc with
  | nil => exact h
  | cons y ys ih => exact ih (nodup_insertIfAbsent h y)

theorem collectShardNames_eq_foldl_aux (nbs : List (Node × Broker)) (init : List Name) :
    nbs.foldl (fun acc nb =>
        nb.2.shard_ranges.foldl (fun a sr => insertIfAbsent a sr.name) acc) init =
      (entryShardNames nbs).foldl insertIfAbsent init := by
  induction nbs generalizing init with
  | nil => rfl
  | cons nb rest ih =>
    unfold entryShardNames
    simp only [List.map_cons, List.flatten_cons, List.foldl_append, List.foldl_cons,
      List.foldl_map]
    rw [ih]
    rfl

theorem collectShardNames_eq_foldl (nbs : List (Node × Broker)) :
    collectShardNames nbs = (entryShardNames nbs).foldl insertIfAbsent [] :=
  collectShardNames_eq_foldl_aux nbs []

theorem collectShardNames_nodup (nbs : List (Node × Broker)) :
    (collectShardNames nbs).Nodup := by
  rw [collectShardNames_eq_foldl]
  exact nodup_foldl_insertIfAbsent (by simp)

theorem mem_collectShardNames {nbs : List (Node × Broker)} {c : Name} :
    c ∈ collectShardNames nbs ↔ c ∈ entryShardNames nbs := by
  rw [collectShardNames_eq_foldl, mem_foldl_insertIfAbsent]
  simp

theorem mem_entryShardNames {nbs : List (Node × Broker)} {c : Name} :
    c ∈ entryShardNames nbs ↔
      ∃ nb ∈ nbs, ∃ sr ∈ nb.2.shard_ranges, sr.name = c := by
  unfold entryShardNames
  simp only [List.mem_flatten, List.mem_map, Prod.exists]
  constructor
  · rintro ⟨l, ⟨a, b, hab, rfl⟩, hc⟩
    obtain ⟨sr, hsr, hn⟩ := List.mem_map.1 hc
    exact ⟨a, b, hab, sr, hsr, hn⟩
  · rintro ⟨a, b, hab, sr, hsr, hn⟩
    exact ⟨List.map (fun sr => sr.name) b.shard_ranges, ⟨a, b, hab, rfl⟩,
      List.mem_map.2 ⟨sr, hsr, hn⟩⟩

/-! ### The stable sort by the deleted flag is the stable partition -/

theorem srInsert_not_deleted {x : ShardRange} (hx : x.deleted = false)
    (l : List ShardRange) : srInsert x l = x :: l := by
  cases l with
  | nil => rfl
  | cons y ys =>
    unfold srInsert srLT
    simp [hx]

theorem srInsert_deleted {x : ShardRange} (hx : x.deleted = true) :
    ∀ (A B : List ShardRange), (∀ a ∈ A, a.deleted = false) →
      (∀ b ∈ B, b.deleted = true) → srInsert x (A ++ B) = A ++ x :: B := by
  intro A
  induction A with
  | nil =>
    intro B _ hB
    cases B with
    | nil => rfl
    | cons b bs =>
      unfold srInsert srLT
      simp [hB b (by simp)]
  | cons a as ih =>
    intro B hA hB
    have ha : a.deleted = false := hA a (by simp)
    simp only [List.cons_append]
    unfold srInsert srLT
    simp only [ha, hx, Bool.not_false, Bool.and_self, if_pos]
    rw [ih B (fun p hp => hA p (by simp [hp])) hB]

theorem sortByDeleted_eq_partition (l : List ShardRange) :
    sortByDeleted l =
      l.filter (fun sr => !sr.deleted) ++ l.filter (fun sr => sr.deleted) := by
  induction l with
  | nil => rfl
  | cons x xs ih =>
    unfold sortByDeleted at ih ⊢
    simp only [List.foldr_cons, ih]
    cases hx : x.deleted with
    | false =>
      rw [srInsert_not_deleted hx]
      simp [List.filter, hx]
    | true =>
      rw [srInsert_deleted hx _ _
        (fun a ha => by simpa using (List.mem_filter.1 ha).2)
        (fun b hb => by simpa using (List.mem_filter.1 hb).2)]
      simp [List.filter, hx]

theorem sortByDeleted_perm (l : List ShardRange) : (sortByDeleted l).Perm l := by
  rw [sortByDeleted_eq_partition]
  have h := List.filter_append_perm (fun sr => !sr.deleted) l
  simpa using h

theorem sortByDeleted_filter_not (l : List ShardRange) :
    (sortByDeleted l).filter (fun sr => !sr.deleted) =
      l.filter (fun sr => !sr.deleted) := by
  rw [sortByDeleted_eq_partition, List.filter_append]
  rw [List.filter_filter, List.filter_filter]
  simp only [Bool.and_self, Bool.and_not_self]
  simp [List.filter_eq_nil_iff]

theorem sortByDeleted_filter_del (l : List ShardRange) :
    (sortByDeleted l).filter (fun sr => sr.deleted) =
      l.filter (fun sr => sr.deleted) := by
  rw [sortByDeleted_eq_partition, List.filter_append]
  rw [List.filter_filter, List.filter_filter]
  simp only [Bool.not_and_self, Bool.and_self]
  simp [List.filter_eq_nil_iff]

theorem sortByDeleted_pairwise (l : List ShardRange) :
    (sortByDeleted l).Pairwise (fun a b => a.deleted = true → b.deleted = true) := by
  rw [sortByDeleted_eq_partition]
  rw [List.pairwise_append]
  refine ⟨?_, ?_, ?_⟩
  · refine List.pairwise_of_forall_mem_list ?_
    intro a ha b hb hd
    have : a.deleted = false := by simpa using (List.mem_filter.1 ha).2
    rw [this] at hd
    exact absurd hd (by simp)
  · refine List.pairwise_of_forall_mem_list ?_
    intro a ha b hb hd
    simpa using (List.mem_filter.1 hb).2
  · intro a ha b hb hd
    simpa using (List.mem_filter.1 hb).2

/-! ### Sufficient fuel: the recursion is bounded by the shard-name universe -/

theorem unvis_le_length (univ used : List Name) : unvis univ used ≤ univ.length :=
  List.length_filter_le _ _

theorem unvis_mono (univ : List Name) {used used' : List Name} (h : used ⊆ used') :
    unvis univ used' ≤ unvis univ used :=
  List.Sublist.length_le (List.monotone_filter_right univ (fun a ha => by
    simp only [decide_eq_true_eq] at ha ⊢
    exact fun hx => ha (h hx)))

theorem unvis_cons_lt {univ used : List Name} {c : Name} (hc : c ∈ univ)
    (hcu : c ∉ used) : unvis univ (c :: used) < unvis univ used := by
  induction univ with
  | nil => cases hc
  | cons y ys ih =>
    unfold unvis
    by_cases hy : y = c
    · subst hy
      rw [List.filter_cons, List.filter_cons]
      have h1 : (decide (y ∉ y :: used)) = false := by simp
      have h2 : (decide (y ∉ used)) = true := by simpa using hcu
      rw [h1, h2]
      simp only [List.length_cons]
      exact Nat.lt_succ_of_le (unvis_mono ys (by intro x hx; simp [hx]))
    · have hcys : c ∈ ys := by
        rcases List.mem_cons.1 hc with h | h
        · exact absurd h.symm hy
        · exact h
      have hsame : (decide (y ∉ c :: used)) = (decide (y ∉ used)) := by
        by_cases hyu : y ∈ used
        · simp [hyu]
        · simp [hyu, hy]
      rw [List.filter_cons, List.filter_cons, hsame]
      cases hv : (decide (y ∉ used)) with
      | false => exact ih hcys
      | true =>
        simp only [List.length_cons]
        exact Nat.succ_lt_succ (ih hcys)

theorem mem_shardNameUniverse_of_lookup {m : AggMap} {n x : Name}
    (hx : x ∈ entryShardNames (lookupD m n)) : x ∈ shardNameUniverse m := by
  induction m with
  | nil => simp [lookupD, entryShardNames] at hx
  | cons e rest ih =>
    unfold shardNameUniverse
    simp only [List.map_cons, List.flatten_cons, List.mem_append]
    unfold lookupD at hx
    by_cases he : e.1 = n
    · rw [if_pos he] at hx
      exact .inl hx
    · rw [if_neg he] at hx
      exact .inr (by simpa [shardNameUniverse] using ih hx)

theorem collectShardNames_subset_universe {m0 m : AggMap}
    (hinv : ∀ n, lookupD m n = lookupD m0 n) (n : Name) :
    collectShardNames (lookupD m n) ⊆ shardNameUniverse m0 := by
  intro x hx
  rw [mem_collectShardNames, hinv] at hx
  exact mem_shardNameUniverse_of_lookup hx

theorem collectShardNames_length_le {m0 m : AggMap}
    (hinv : ∀ n, lookupD m n = lookupD m0 n) (n : Name) :
    (collectShardNames (lookupD m n)).length ≤ (shardNameUniverse m0).length :=
  ((collectShardNames_nodup _).subperm
    (collectShardNames_subset_universe hinv n)).length_le

/-- Combined induction statement: enough fuel guarantees completion.  The
measure charges one fuel unit per recursion step; a fresh visit to a name of
the universe strictly shrinks `unvis`, which bounds the total depth. -/
theorem fuel_both (m0 : AggMap) (fuel : Nat) :
    (∀ name m et il u, (∀ n, lookupD m n = lookupD m0 n) →
      (unvis (shardNameUniverse m0) (name :: localUsed u) + 1) *
          ((shardNameUniverse m0).length + 2) ≤ fuel →
      (print_container fuel name m et il u).isSome = true) ∧
    (∀ names m il us, (∀ n, lookupD m n = lookupD m0 n) →
      names ⊆ shardNameUniverse m0 →
      unvis (shardNameUniverse m0) us * ((shardNameUniverse m0).length + 2) +
          names.length + 1 ≤ fuel →
      (print_children fuel names m il us).isSome = true) := by
  induction fuel with
  | zero =>
    constructor
    · intro name m et il u hinv hb
      exfalso
      have h3 : (shardNameUniverse m0).length + 2 ≤
          (unvis (shardNameUniverse m0) (name :: localUsed u) + 1) *
            ((shardNameUniverse m0).length + 2) :=
        Nat.le_mul_of_pos_left _ (Nat.succ_pos _)
      omega
    · intro names m il us hinv hsub hb
      cases names with
      | nil => rw [print_children_nil]; rfl
      | cons c rest =>
        exfalso
        simp only [List.length_cons] at hb
        omega
  | succ fuel ih =>
    obtain ⟨ihc, ihl⟩ := ih
    constructor
    · intro name m et il u hinv hb
      by_cases hv : name ∈ localUsed u
      · rw [print_container_visited hv]; rfl
      · rw [print_container_fresh hv]
        have hinv1 : ∀ n, lookupD (ddGet m name).2 n = lookupD m0 n := by
          intro n
          obtain ⟨new, he, hemp⟩ := ddGet_snd_append m name
          rw [he, lookupD_append_empties hemp, hinv]
        have hsub1 := collectShardNames_subset_universe hinv name
        have hlen1 := collectShardNames_length_le hinv name
        have hbound : unvis (shardNameUniverse m0) (name :: localUsed u) *
              ((shardNameUniverse m0).length + 2) +
              (collectShardNames (lookupD m name)).length + 1 ≤ fuel := by
          have hexp : (unvis (shardNameUniverse m0) (name :: localUsed u) + 1) *
              ((shardNameUniverse m0).length + 2) =
              unvis (shardNameUniverse m0) (name :: localUsed u) *
                ((shardNameUniverse m0).length + 2) +
                ((shardNameUniverse m0).length + 2) := by ring
          rw [hexp] at hb
          generalize unvis (shardNameUniverse m0) (name :: localUsed u) *
            ((shardNameUniverse m0).length + 2) = A at hb ⊢
          omega
        have hsome := ihl (collectShardNames (lookupD m name)) (ddGet m name).2
          (il + 1) (name :: localUsed u) hinv1 hsub1 hbound
        cases heq : print_children fuel (collectShardNames (lookupD m name))
            (ddGet m name).2 (il + 1) (name :: localUsed u) with
        | none => rw [heq] at hsome; simp at hsome
        | some r =>
          obtain ⟨cl, m2, us2⟩ := r
          rfl
    · intro names m il us hinv hsub hb
      cases names with
      | nil => rw [print_children_nil]; rfl
      | cons c rest =>
        rw [print_children_cons]
        simp only [List.length_cons] at hb
        by_cases hcv : c ∈ localUsed (some us)
        · -- already visited: the marker branch only needs one unit of fuel
          cases fuel with
          | zero =>
            exfalso
            generalize unvis (shardNameUniverse m0) us *
              ((shardNameUniverse m0).length + 2) = A at hb
            omega
          | succ f =>
            rw [print_container_visited hcv]
            have hrest : unvis (shardNameUniverse m0) (localUsed (some us)) *
                ((shardNameUniverse m0).length + 2) + rest.length + 1 ≤ f + 1 := by
              rw [localUsed_some]
              generalize unvis (shardNameUniverse m0) us *
                ((shardNameUniverse m0).length + 2) = A at hb ⊢
              omega
            have hinv1 : ∀ n, lookupD (ddGet m c).2 n = lookupD m0 n := by
              intro n
              obtain ⟨new, he, hemp⟩ := ddGet_snd_append m c
              rw [he, lookupD_append_empties hemp, hinv]
            have hsome := ihl rest (ddGet m c).2 il (localUsed (some us)) hinv1
              (fun x hx => hsub (by simp [hx])) hrest
            cases heq : print_children (f + 1) rest (ddGet m c).2 il
                (localUsed (some us)) with
            | none => rw [heq] at hsome; simp at hsome
            | some r =>
              obtain ⟨cl, m2, us2⟩ := r
              simp [heq]
        · -- fresh child: one recursive render, then the rest of the loop
          rw [localUsed_some] at hcv
          have hcU : c ∈ shardNameUniverse m0 := hsub (by simp)
          have hlt : unvis (shardNameUniverse m0) (c :: us) + 1 ≤
              unvis (shardNameUniverse m0) us := unvis_cons_lt hcU hcv
          have hAB : (unvis (shardNameUniverse m0) (c :: us) + 1) *
                ((shardNameUniverse m0).length + 2) ≤
              unvis (shardNameUniverse m0) us *
                ((shardNameUniverse m0).length + 2) :=
            Nat.mul_le_mul_right _ hlt
          have hcb : (unvis (shardNameUniverse m0) (c :: localUsed (some us)) + 1) *
              ((shardNameUniverse m0).length + 2) ≤ fuel := by
            rw [localUsed_some]
            generalize h1 : (unvis (shardNameUniverse m0) (c :: us) + 1) *
              ((shardNameUniverse m0).length + 2) = A at hAB ⊢
            generalize unvis (shardNameUniverse m0) us *
              ((shardNameUniverse m0).length + 2) = B at hAB hb
            omega
          have hcsome := ihc c m "SHARD" il (some us) hinv hcb
          cases heq1 : print_container fuel c m "SHARD" il (some us) with
          | none => rw [heq1] at hcsome; simp at hcsome
          | some r1 =>
            obtain ⟨o1, m1, us1⟩ := r1
            have hinv1 : ∀ n, lookupD m1 n = lookupD m0 n := by
              intro n
              rw [lookupD_of_print_container heq1, hinv]
            have husub : c :: us ⊆ us1 := by
              obtain ⟨h1, h2⟩ := used_of_print_container heq1
              rw [localUsed_some] at h1
              exact List.cons_subset.2 ⟨h2, h1⟩
            have hm2 : unvis (shardNameUniverse m0) us1 ≤
                unvis (shardNameUniverse m0) (c :: us) :=
              unvis_mono _ husub
            have hmul2 : unvis (shardNameUniverse m0) us1 *
                  ((shardNameUniverse m0).length + 2) ≤
                unvis (shardNameUniverse m0) (c :: us) *
                  ((shardNameUniverse m0).length + 2) :=
              Nat.mul_le_mul_right _ hm2
            have hexp : (unvis (shardNameUniverse m0) (c :: us) + 1) *
                ((shardNameUniverse m0).length + 2) =
                unvis (shardNameUniverse m0) (c :: us) *
                  ((shardNameUniverse m0).length + 2) +
                  ((shardNameUniverse m0).length + 2) := by ring
            have hrest : unvis (shardNameUniverse m0) us1 *
                ((shardNameUniverse m0).length + 2) + rest.length + 1 ≤ fuel := by
              rw [hexp] at hAB
              generalize unvis (shardNameUniverse m0) us1 *
                ((shardNameUniverse m0).length + 2) = P1 at hmul2 ⊢
              generalize unvis (shardNameUniverse m0) (c :: us) *
                ((shardNameUniverse m0).length + 2) = P2 at hmul2 hAB
              generalize unvis (shardNameUniverse m0) us *
                ((shardNameUniverse m0).length + 2) = P3 at hAB hb
              omega
            have hrsome := ihl rest m1 il us1 hinv1
              (fun x hx => hsub (by simp [hx])) hrest
            cases heq2 : print_children fuel rest m1 il us1 with
            | none => rw [heq2] at hrsome; simp at hrsome
            | some r2 =>
              obtain ⟨o2, m2, us2⟩ := r2
              simp [heq2]

/-- One top-level call with the canonical fuel always has enough fuel. -/
theorem print_container_top_isSome {m0 m : AggMap}
    (hinv : ∀ n, lookupD m n = lookupD m0 n) (name : Name) :
    (print_container (fuelBound m0) name m "ROOT" 0 none).isSome = true := by
  refine (fuel_both m0 (fuelBound m0)).1 name m "ROOT" 0 none hinv ?_
  unfold fuelBound
  refine Nat.mul_le_mul_right _ ?_
  have := unvis_le_length (shardNameUniverse m0) (name :: localUsed none)
  omega

theorem runLoop_isSome {m0 : AggMap} :
    ∀ (items : List (Name × List (Node × Broker))) (m : AggMap),
      (∀ n, lookupD m n = lookupD m0 n) →
      (runLoop (fuelBound m0) items m).isSome = true := by
  intro items
  induction items with
  | nil => intro m hinv; rfl
  | cons e rest ih =>
    intro m hinv
    obtain ⟨name, nbs⟩ := e
    rw [runLoop]
    by_cases hr : expectRoot nbs
    · rw [if_pos hr]
      have hsome := print_container_top_isSome hinv name
      cases heq : print_container (fuelBound m0) name m "ROOT" 0 none with
      | none => rw [heq] at hsome; simp at hsome
      | some r =>
        obtain ⟨out, m', us'⟩ := r
        have hinv' : ∀ n, lookupD m' n = lookupD m0 n := by
          intro n
          rw [lookupD_of_print_container heq, hinv]
        have hrec := ih m' hinv'
        cases heq2 : runLoop (fuelBound m0) rest m' with
        | none => rw [heq2] at hrec; simp at hrec
        | some r2 =>
          obtain ⟨out2, m2⟩ := r2
          simp [heq2]
    · rw [if_neg hr]
      exact ih m hinv

/-- The rendering phase with the canonical fuel never runs out of fuel: the
embedded driver always completes. -/
theorem runTop_isSome (m0 : AggMap) : (runTop m0).isSome = true := by
  unfold runTop run
  exact runLoop_isSome m0 m0 (fun n => rfl)

/-! ### A first visit to an identity with no entry renders the empty block -/

theorem print_container_empty {name : Name} {m : AggMap} {u : Option (List Name)}
    (hv : name ∉ localUsed u) (hemp : lookupD m name = []) (fuel : Nat)
    (et : String) (il : Nat) :
    print_container (fuel + 1) name m et il u =
      some (emptyBlock name il, (ddGet m name).2, name :: localUsed u) := by
  rw [print_container_fresh hv, hemp]
  rw [show collectShardNames [] = [] from rfl, print_children_nil]
  simp [freshHeader, emptyBlock]

theorem lookupD_eq_of_mem {m : AggMap} {e : Name × List (Node × Broker)}
    (hm : NodupKeys m) (he : e ∈ m) : lookupD m e.1 = e.2 := by
  induction m with
  | nil => cases he
  | cons f rest ih =>
    unfold NodupKeys at hm
    simp only [List.map_cons, List.nodup_cons] at hm
    rcases List.mem_cons.1 he with rfl | he
    · simp [lookupD]
    · unfold lookupD
      split
      · next hf => exact absurd (hf ▸ List.mem_map.2 ⟨e, he, rfl⟩) hm.1
      · exact ih hm.2 he

/-- Combined induction statement: if an identity `c` with no entry (then or
at any later point, since entries are only ever added empty) gets added to the
visited set by a call, that call's output contains `c`'s empty block. -/
theorem block_both (c : Name) (fuel : Nat) :
    (∀ name m et il u o m' us',
      print_container fuel name m et il u = some (o, m', us') →
      lookupD m c = [] → c ∉ localUsed u → c ∈ us' →
      ∃ pre post d, o = pre ++ emptyBlock c d ++ post) ∧
    (∀ names m il us o m' us',
      print_children fuel names m il us = some (o, m', us') →
      lookupD m c = [] → c ∉ us → c ∈ us' →
      ∃ pre post d, o = pre ++ emptyBlock c d ++ post) := by
  induction fuel with
  | zero =>
    constructor
    · intro name m et il u o m' us' h
      simp [print_container_zero] at h
    · intro names m il us o m' us' h hemp hcu hcus
      cases names with
      | nil =>
        rw [print_children_nil] at h
        obtain ⟨rfl, rfl, rfl⟩ := by simpa using h
        exact absurd hcus hcu
      | cons a rest => simp [print_children_zero_cons] at h
  | succ fuel ih =>
    obtain ⟨ihc, ihl⟩ := ih
    constructor
    · intro name m et il u o m' us' h hemp hcu hcus
      by_cases hv : name ∈ localUsed u
      · rw [print_container_visited hv] at h
        obtain ⟨-, -, rfl⟩ := by simpa using h
        exact absurd hcus hcu
      · rw [print_container_fresh hv] at h
        revert h
        split
        · intro h; simp at h
        · next childLines m2 used2 heq =>
          intro h
          obtain ⟨rfl, rfl, rfl⟩ := by simpa using h
          by_cases hcn : c = name
          · subst hcn
            rw [hemp] at heq ⊢
            rw [show collectShardNames [] = [] from rfl, print_children_nil] at heq
            obtain ⟨rfl, -, -⟩ := by simpa using heq
            refine ⟨[], [], il, ?_⟩
            simp [freshHeader, emptyBlock]
          · have hemp1 : lookupD (ddGet m name).2 c = [] := by
              obtain ⟨new, he, hew⟩ := ddGet_snd_append m name
              rw [he, lookupD_append_empties hew, hemp]
            have hcu1 : c ∉ name :: localUsed u := by
              simp only [List.mem_cons, not_or]
              exact ⟨hcn, hcu⟩
            obtain ⟨pre, post, d, hdec⟩ := ihl _ _ _ _ _ _ _ heq hemp1 hcu1 hcus
            refine ⟨freshHeader name (lookupD m name) et il ++
              (indentStr il ++ "Shards:") :: pre, post ++ ["\n"], d, ?_⟩
            rw [hdec]
            simp
    · intro names m il us o m' us' h hemp hcu hcus
      cases names with
      | nil =>
        rw [print_children_nil] at h
        obtain ⟨rfl, rfl, rfl⟩ := by simpa using h
        exact absurd hcus hcu
      | cons a rest =>
        rw [print_children_cons] at h
        revert h
        split
        · intro h; simp at h
        · next out1 m1 used1 heq1 =>
          split
          · intro h; simp at h
          · next out2 m2 used2 heq2 =>
            intro h
            obtain ⟨rfl, rfl, rfl⟩ := by simpa using h
            by_cases hc1 : c ∈ used1
            · have hcu' : c ∉ localUsed (some us) := by
                rw [localUsed_some]; exact hcu
              obtain ⟨pre, post, d, hdec⟩ := ihc _ _ _ _ _ _ _ _ heq1 hemp hcu' hc1
              exact ⟨pre, post ++ out2, d, by rw [hdec]; simp⟩
            · have hemp1 : lookupD m1 c = [] := by
                rw [lookupD_of_print_container heq1, hemp]
              obtain ⟨pre, post, d, hdec⟩ := ihl _ _ _ _ _ _ _ heq2 hemp1 hc1 hcus
              exact ⟨out1 ++ pre, post, d, by rw [hdec]; simp⟩

/-- A top-level render of a root whose shard-name set contains `c` visits `c`
(and, when `c` has no entry anywhere, therefore renders `c`'s empty block). -/
theorem top_render_block {m : AggMap} {c name : Name} {fuel : Nat}
    {o : List String} {m' : AggMap} {us' : List Name}
    (heq : print_container fuel name m "ROOT" 0 none = some (o, m', us'))
    (hemp : lookupD m c = [])
    (hc : c ∈ collectShardNames (lookupD m name)) :
    ∃ pre post d, o = pre ++ emptyBlock c d ++ post := by
  cases fuel with
  | zero => simp [print_container_zero] at heq
  | succ fuel =>
    have hv : name ∉ localUsed (none : Option (List Name)) := by
      simp [localUsed]
    have hcv : c ∉ localUsed (none : Option (List Name)) := by
      simp [localUsed]
    -- extract the children call to learn that c ends up visited
    have hcus : c ∈ us' := by
      rw [print_container_fresh hv] at heq
      revert heq
      split
      · intro heq; simp at heq
      · next childLines m2 used2 hch =>
        intro heq
        obtain ⟨-, -, rfl⟩ := by simpa using heq
        exact (used_of_print_children hch).2 c hc
    exact (block_both c (fuel + 1)).1 _ _ _ _ _ _ _ _ heq hemp hcv hcus

/-- Along the driver loop, the rendered block of any root item whose
shard-name set contains an entry-less identity `c` appears in the loop's
output. -/
theorem runLoop_block {m0 : AggMap} (c : Name) :
    ∀ (items : List (Name × List (Node × Broker))) (m : AggMap)
      (out : List String) (mf : AggMap),
      runLoop (fuelBound m0) items m = some (out, mf) →
      (∀ n, lookupD m n = lookupD m0 n) →
      lookupD m0 c = [] →
      (∃ e ∈ items, expectRoot e.2 = true ∧
        c ∈ collectShardNames (lookupD m0 e.1)) →
      ∃ pre post d, out = pre ++ emptyBlock c d ++ post := by
  intro items
  induction items with
  | nil =>
    intro m out mf h hinv hemp hex
    simp at hex
  | cons e rest ih =>
    intro m out mf h hinv hemp hex
    obtain ⟨name, nbs⟩ := e
    rw [runLoop] at h
    by_cases hr : expectRoot nbs
    · rw [if_pos hr] at h
      revert h
      split
      · intro h; simp at h
      · next o m' us' heq =>
        split
        · intro h; simp at h
        · next out2 m2 heq2 =>
          intro h
          obtain ⟨rfl, rfl⟩ := by simpa using h
          have hinv' : ∀ n, lookupD m' n = lookupD m0 n := by
            intro n
            rw [lookupD_of_print_container heq, hinv]
          obtain ⟨⟨ename, enbs⟩, hmem, hroot, hcn⟩ := hex
          rcases List.mem_cons.1 hmem with hfirst | hrest
          · have h1 : ename = name := congrArg Prod.fst hfirst
            rw [h1] at hcn
            have hcm : c ∈ collectShardNames (lookupD m name) := by
              rw [hinv]; exact hcn
            have hempm : lookupD m c = [] := by rw [hinv]; exact hemp
            obtain ⟨pre, post, d, hdec⟩ := top_render_block heq hempm hcm
            exact ⟨pre, post ++ out2, d, by rw [hdec]; simp⟩
          · obtain ⟨pre, post, d, hdec⟩ := ih m' out2 m2 heq2 hinv' hemp
              ⟨(ename, enbs), hrest, hroot, hcn⟩
            exact ⟨o ++ pre, post, d, by rw [hdec]; simp⟩
    · rw [if_neg hr] at h
      obtain ⟨⟨ename, enbs⟩, hmem, hroot, hcn⟩ := hex
      rcases List.mem_cons.1 hmem with hfirst | hrest
      · exfalso
        have : nbs = enbs := congrArg Prod.snd hfirst.symm
        rw [this] at hr
        exact hr hroot
      · exact ih m out mf h hinv hemp ⟨(ename, enbs), hrest, hroot, hcn⟩

/-! ### The Collector: lemmas -/

theorem innerLookup_innerInsert_ne {nbs : List (Node × Broker)} {node n : Node}
    (hne : node ≠ n) (b : Broker) :
    innerLookup (innerInsert nbs node b) n = innerLookup nbs n := by
  induction nbs with
  | nil => simp [innerInsert, innerLookup, hne]
  | cons p rest ih =>
    unfold innerInsert
    split
    · next hp =>
      unfold innerLookup
      rw [if_neg hne, if_neg (hp ▸ hne)]
    · unfold innerLookup
      split
      · rfl
      · exact ih

theorem innerLookup_mapInsert_ne {m : AggMap} {name : Name} {node n : Node}
    (hne : node ≠ n) (b : Broker) (x : Name) :
    innerLookup (lookupD (mapInsert m name node b) x) n =
      innerLookup (lookupD m x) n := by
  induction m with
  | nil =>
    unfold mapInsert
    unfold lookupD
    split
    · simp [innerLookup, lookupD, hne]
    · rfl
  | cons e rest ih =>
    unfold mapInsert
    split
    · next he =>
      by_cases hnx : name = x
      · rw [show lookupD ((name, innerInsert e.2 node b) :: rest) x =
            innerInsert e.2 node b from by simp only [lookupD]; rw [if_pos hnx]]
        rw [show lookupD (e :: rest) x = e.2 from by
          simp only [lookupD]; rw [if_pos (he.trans hnx)]]
        exact innerLookup_innerInsert_ne hne b
      · rw [show lookupD ((name, innerInsert e.2 node b) :: rest) x =
            lookupD rest x from by simp only [lookupD]; rw [if_neg hnx]]
        rw [show lookupD (e :: rest) x = lookupD rest x from by
          simp only [lookupD]; rw [if_neg (fun hh => hnx (he.symm.trans hh))]]
    · next he =>
      rw [show lookupD (e :: mapInsert rest name node b) x =
          if e.1 = x then e.2 else lookupD (mapInsert rest name node b) x from rfl]
      rw [show lookupD (e :: rest) x =
          if e.1 = x then e.2 else lookupD rest x from rfl]
      split
      · rfl
      · exact ih

theorem innerLookup_foldl_ne {n : Node} (f : String → Broker) :
    ∀ (ts : List (Nat × String × Nat)) (m : AggMap) (x : Name),
      (∀ t ∈ ts, t.2.2 ≠ n) →
      innerLookup (lookupD (ts.foldl (fun acc t =>
          mapInsert acc (broker_key (f t.2.1)) t.2.2 (f t.2.1)) m) x) n =
        innerLookup (lookupD m x) n := by
  intro ts
  induction ts with
  | nil => intro m x h; rfl
  | cons t rest ih =>
    intro m x h
    rw [List.foldl_cons, ih _ x (fun t' ht' => h t' (by simp [ht']))]
    exact innerLookup_mapInsert_ne (h t (by simp)) _ x

theorem collectDirs_erase_absent {env : CollectEnv} {d : Dev}
    (habs : env.isDir (datadirOf env d) = false) :
    collectDirs (eraseDev env d) = collectDirs env := by
  unfold collectDirs eraseDev
  have hdd : ∀ x, datadirOf (eraseDev env d) x = datadirOf env x := fun _ => rfl
  unfold eraseDev at hdd
  simp only [hdd]
  rw [List.filter_filter]
  congr 1
  refine List.filter_congr ?_
  intro x hx
  by_cases hxd : x = d
  · subst hxd
    simp [habs]
  · simp [hxd]

/-- The walker only yields node ids of devices whose data directory exists. -/
theorem walk_node_ne {env : CollectEnv} {d : Dev} (hws : WalkSound env)
    (hid : ∀ d' ∈ env.devs, d'.id = d.id → env.isDir (datadirOf env d') = false) :
    ∀ t ∈ env.walk (collectDirs env), t.2.2 ≠ d.id := by
  intro t ht heq
  obtain ⟨p, hp, hpt⟩ := hws _ t ht
  unfold collectDirs at hp
  obtain ⟨d', hd', hpd⟩ := List.mem_map.1 hp
  obtain ⟨hd'mem, hd'dir⟩ := List.mem_filter.1 hd'
  have hp2 : p.2 = d'.id := by rw [← hpd]
  have : d'.id = d.id := by rw [← hp2, ← hpt, heq]
  have := hid d' hd'mem this
  rw [this] at hd'dir
  cases hd'dir

theorem collect_brokers_erase {env : CollectEnv} {d : Dev} (m : AggMap)
    (habs : env.isDir (datadirOf env d) = false) :
    collect_brokers (eraseDev env d) m = collect_brokers env m := by
  unfold collect_brokers
  rw [collectDirs_erase_absent habs]
  rfl

/-! ### The driver loop and the root filter -/

theorem foldl_or_eq (p : (Node × Broker) → Bool) (l : List (Node × Broker)) :
    ∀ acc, l.foldl (fun a x => p x || a) acc = (l.any p || acc) := by
  induction l with
  | nil => intro acc; simp
  | cons x xs ih =>
    intro acc
    rw [List.foldl_cons, ih, List.any_cons]
    cases p x <;> cases acc <;> cases xs.any p <;> rfl

theorem expectRoot_iff (nbs : List (Node × Broker)) :
    expectRoot nbs = true ↔ ∃ nb ∈ nbs, nb.2.is_root_container = true := by
  unfold expectRoot
  rw [foldl_or_eq (fun nb => nb.2.is_root_container) nbs false]
  simp [List.any_eq_true]

theorem runLoop_eq_renderRoots (fuel : Nat) :
    ∀ (items : List (Name × List (Node × Broker))) (m : AggMap),
      runLoop fuel items m =
        renderRoots fuel (items.filter (fun e => expectRoot e.2)) m := by
  intro items
  induction items with
  | nil => intro m; rfl
  | cons e rest ih =>
    intro m
    obtain ⟨name, nbs⟩ := e
    rw [runLoop]
    by_cases hr : expectRoot nbs
    · rw [if_pos hr, List.filter_cons_of_pos (by simpa using hr), renderRoots]
      cases print_container fuel name m "ROOT" 0 none with
      | none => rfl
      | some r =>
        obtain ⟨o, m', us'⟩ := r
        simp only [ih]
    · rw [if_neg hr, List.filter_cons_of_neg (by simpa using hr), ih m]

/-! ### Last characters, used to tell the ERROR line from the db-file line -/

theorem string_data_append (s t : String) : (s ++ t).data = s.data ++ t.data := by
  cases s
  cases t
  rfl

theorem getLastChar_append_rparen (s : String) :
    ((s ++ ")").data).getLast? = some ')' := by
  rw [string_data_append]
  exact List.getLast?_concat _

theorem getLastChar_append_container_type (s : String) (b : Broker) :
    ((s ++ container_type b).data).getLast? =
      some (if b.is_root_container then 'T' else 'D') := by
  rw [string_data_append]
  unfold container_type
  cases hb : b.is_root_container <;>
    simp [List.getLast?_append_of_ne_nil]

theorem dbErrLine_ne_dbFileLine (il : Nat) (et : String) (b : Broker)
    (node : Node) :
    dbErrLine il et (container_type b) ≠
      indentStr il ++ b.db_file ++ " (" ++ toString node ++ ")" := by
  intro h
  have hd := congrArg (fun s => s.data.getLast?) h
  simp only at hd
  rw [show dbErrLine il et (container_type b) =
      (indentStr il ++ "        ERROR expected " ++ et ++ " but found ") ++
        container_type b from rfl] at hd
  rw [getLastChar_append_container_type] at hd
  rw [show indentStr il ++ b.db_file ++ " (" ++ toString node ++ ")" =
      (indentStr il ++ b.db_file ++ " (" ++ toString node) ++ ")" from rfl] at hd
  rw [getLastChar_append_rparen] at hd
  cases hb : b.is_root_container <;> rw [hb] at hd <;> simp at hd

/-! ### The claims -/

/-- C1, counterexample: rendering is not read-only on the aggregation map.
Calling the Renderer on an identity with no entry (here: any identity on the
empty map) adds a key: the `defaultdict` lookup inserts an empty entry, so
the key set of the map is changed by the call.  The second half shows the
same mutation in a realistic full run: a root whose only shard child `a/s`
has no entry finishes the run with a new `("a/s", [])` key in the map. -/
theorem claim_c1_counterexample :
    (print_container 1 "a/c" ([] : AggMap) "ROOT" 0 none =
      some (emptyBlock "a/c" 0, [("a/c", [])], ["a/c"]) ∧
    ([("a/c", [])] : AggMap) ≠ ([] : AggMap)) ∧
    ((runTop mW).map (fun r => r.2) =
      some [("a/r", [(0, bRootW)]), ("a/s", [])] ∧
    ([("a/r", [(0, bRootW)]), ("a/s", [])] : AggMap) ≠ mW) :=
  ⟨⟨by decide, by decide⟩, ⟨by decide, by decide⟩⟩

/-- C1, amended: during rendering, every completed `print_container` call
leaves every existing entry unchanged and never removes a key — every lookup
with the `defaultdict` default is preserved — but the key set may grow: the
call only ever appends entries with an empty node-map, for visited names that
had no entry. -/
theorem claim_c1 {fuel : Nat} {name : Name} {m : AggMap} {et : String}
    {il : Nat} {u : Option (List Name)} {o : List String} {m' : AggMap}
    {us' : List Name}
    (h : print_container fuel name m et il u = some (o, m', us')) :
    (∃ new, m' = m ++ new ∧ ∀ p ∈ new, p.2 = []) ∧
    (∀ x, lookupD m' x = lookupD m x) :=
  ⟨print_container_grow h, lookupD_of_print_container h⟩

theorem claim_c1_witness :
    (print_container 1 "b/c" ([] : AggMap) "SHARD" 0 none =
      some (emptyBlock "b/c" 0, [("b/c", [])], ["b/c"])) ∧
    ((∃ new, ([("b/c", [])] : AggMap) = ([] : AggMap) ++ new ∧
        ∀ p ∈ new, p.2 = []) ∧
      (∀ x, lookupD ([("b/c", [])] : AggMap) x = lookupD ([] : AggMap) x)) :=
  ⟨by decide, @claim_c1 1 "b/c" [] "SHARD" 0 none (emptyBlock "b/c" 0)
    [("b/c", [])] ["b/c"] (by decide)⟩

/-- C2: with the canonical (always sufficient) fuel, the full run on a map in
which some root's shard-range child name `c` has no entry completes without
error, and its output contains, somewhere, the block for `c`: its name line
followed by empty DB-file/Info/Sharding-info/Own-shard-range/Shard-ranges
sections and an empty `Shards:` section — the child is still recursed
into. -/
theorem claim_c2 {m0 : AggMap} {r c : Name} {nbs : List (Node × Broker)}
    (hnk : NodupKeys m0) (hmem : (r, nbs) ∈ m0) (hroot : expectRoot nbs = true)
    (hc : c ∈ entryShardNames nbs) (hmiss : lookupD m0 c = []) :
    ∃ out mf, runTop m0 = some (out, mf) ∧
      ∃ pre post d, out = pre ++ emptyBlock c d ++ post := by
  have hsome := runTop_isSome m0
  cases heq : runTop m0 with
  | none => rw [heq] at hsome; simp at hsome
  | some res =>
    obtain ⟨out, mf⟩ := res
    refine ⟨out, mf, rfl, ?_⟩
    have hl : lookupD m0 r = nbs := lookupD_eq_of_mem hnk hmem
    unfold runTop run at heq
    refine @runLoop_block m0 c m0 m0 out mf heq (fun n => rfl) hmiss
      ⟨(r, nbs), hmem, hroot, ?_⟩
    rw [show ((r, nbs) : Name × List (Node × Broker)).1 = r from rfl, hl]
    exact mem_collectShardNames.2 hc

theorem claim_c2_witness :
    NodupKeys mW ∧ (("a/r", [(0, bRootW)]) ∈ mW) ∧
    expectRoot [(0, bRootW)] = true ∧
    ("a/s" ∈ entryShardNames [(0, bRootW)]) ∧ lookupD mW "a/s" = [] ∧
    (∃ out mf, runTop mW = some (out, mf) ∧
      ∃ pre post d, out = pre ++ emptyBlock "a/s" d ++ post) :=
  ⟨by decide, by decide, by decide, by decide, by decide,
   @claim_c2 mW "a/r" "a/s" [(0, bRootW)] (by decide) (by decide) (by decide)
     (by decide) (by decide)⟩

/-- C3: on any visit where the identity is already in the visited set, the
Renderer prints the name line and the "already listed" marker and returns
immediately: no detail sections are rendered, there is no recursion, and the
visited set is returned unchanged (the map has only seen the `defaultdict`
lookup of the name). -/
theorem claim_c3 :
    (∀ (fuel : Nat) (name : Name) (m : AggMap) (et : String) (il : Nat)
        (u : Option (List Name)), name ∈ localUsed u →
      print_container (fuel + 1) name m et il u =
        some ([indentStr il ++ "Name: " ++ name,
               indentStr il ++ "  (Details already listed)\n"],
              (ddGet m name).2, localUsed u)) ∧
    (∀ (fuel : Nat) (name : Name) (m : AggMap) (et : String) (il : Nat)
        (u : Option (List Name)) (o : List String) (m' : AggMap)
        (us' : List Name),
      print_container fuel name m et il u = some (o, m', us') →
      localUsed u ⊆ us' ∧ name ∈ us') :=
  ⟨fun fuel _ m et il _ h => print_container_visited h fuel m et il,
   fun _ _ _ _ _ _ _ _ _ h => used_of_print_container h⟩

theorem claim_c3_witness :
    ("a/r" ∈ localUsed (some ["a/r"])) ∧
    (print_container 3 "a/r" mW "SHARD" 2 (some ["a/r"]) =
      some ([indentStr 2 ++ "Name: " ++ "a/r",
             indentStr 2 ++ "  (Details already listed)\n"],
            (ddGet mW "a/r").2, localUsed (some ["a/r"]))) ∧
    (localUsed (some ["a/r"]) ⊆ localUsed (some ["a/r"]) ∧
      "a/r" ∈ localUsed (some ["a/r"])) :=
  ⟨by decide, claim_c3.1 2 "a/r" mW "SHARD" 2 (some ["a/r"]) (by decide),
   claim_c3.2 3 "a/r" mW "SHARD" 2 (some ["a/r"]) _ _ _
     (claim_c3.1 2 "a/r" mW "SHARD" 2 (some ["a/r"]) (by decide))⟩

/-- C4: the report of one replica contains the ERROR line naming the expected
and the actual classification exactly when the two differ (first conjunct);
`print_db`'s output is always the db-file line followed by at most that ERROR
line (second conjunct); and a mismatch aborts nothing: a first-visit render
still produces the full structure — every replica's `print_db` output inside
`freshHeader`, all section headers, and the shard loop (third conjunct). -/
theorem claim_c4 :
    (∀ (node : Node) (b : Broker) (et : String) (il : Nat),
      dbErrLine il et (container_type b) ∈ print_db node b et il ↔
        container_type b ≠ et) ∧
    (∀ (node : Node) (b : Broker) (et : String) (il : Nat),
      print_db node b et il =
        (indentStr il ++ b.db_file ++ " (" ++ toString node ++ ")") ::
          (if container_type b ≠ et then [dbErrLine il et (container_type b)]
           else [])) ∧
    (∀ (fuel : Nat) (name : Name) (m : AggMap) (et : String) (il : Nat)
        (u : Option (List Name)), name ∉ localUsed u →
      print_container (fuel + 1) name m et il u =
        match print_children fuel (collectShardNames (lookupD m name))
            (ddGet m name).2 (il + 1) (name :: localUsed u) with
        | none => none
        | some (cl, m2, us2) =>
          some (freshHeader name (lookupD m name) et il ++
            (indentStr il ++ "Shards:") :: cl ++ ["\n"], m2, us2)) := by
  refine ⟨?_, fun node b et il => rfl,
    fun fuel name m et il u h => print_container_fresh h fuel m et il⟩
  intro node b et il
  constructor
  · intro hmem
    by_cases hty : container_type b ≠ et
    · exact hty
    · exfalso
      rw [show print_db node b et il =
          [indentStr il ++ b.db_file ++ " (" ++ toString node ++ ")"] ++
            (if container_type b ≠ et then [dbErrLine il et (container_type b)]
             else []) from rfl, if_neg hty] at hmem
      simp only [List.append_nil, List.mem_singleton] at hmem
      exact dbErrLine_ne_dbFileLine il et b node hmem
  · intro hne
    rw [show print_db node b et il =
        [indentStr il ++ b.db_file ++ " (" ++ toString node ++ ")"] ++
          (if container_type b ≠ et then [dbErrLine il et (container_type b)]
           else []) from rfl, if_pos hne]
    simp

theorem claim_c4_witness :
    (dbErrLine 1 "ROOT" (container_type bShardW) ∈ print_db 3 bShardW "ROOT" 1) ∧
    ("a/r" ∉ localUsed (none : Option (List Name))) ∧
    (print_container 1 "a/r" mW "ROOT" 0 none =
      match print_children 0 (collectShardNames (lookupD mW "a/r"))
          (ddGet mW "a/r").2 1 ("a/r" :: localUsed none) with
      | none => none
      | some (cl, m2, us2) =>
        some (freshHeader "a/r" (lookupD mW "a/r") "ROOT" 0 ++
          (indentStr 0 ++ "Shards:") :: cl ++ ["\n"], m2, us2)) :=
  ⟨(claim_c4.1 3 bShardW "ROOT" 1).mpr (by decide), by decide,
   claim_c4.2.2 0 "a/r" mW "ROOT" 0 none (by decide)⟩

/-- C5: on a first visit, the set of identities the Renderer recurses into is
the duplicate-free union, over all replicas of the identity, of the names in
each replica's full (deleted-included) shard-range listing (conjuncts 1 and
2); the child loop receives exactly that list, at depth + 1, with the visited
set extended by the current name (conjunct 3); and the loop recurses into
each child once with expected type SHARD, threading the same visited set and
map through the sequence (conjunct 4). -/
theorem claim_c5 {name : Name} {u : Option (List Name)} (fuel : Nat)
    (m : AggMap) (et : String) (il : Nat) (h : name ∉ localUsed u) :
    (collectShardNames (lookupD m name)).Nodup ∧
    (∀ c, c ∈ collectShardNames (lookupD m name) ↔
      ∃ nb ∈ lookupD m name, ∃ sr ∈ nb.2.shard_ranges, sr.name = c) ∧
    (print_container (fuel + 1) name m et il u =
      match print_children fuel (collectShardNames (lookupD m name))
          (ddGet m name).2 (il + 1) (name :: localUsed u) with
      | none => none
      | some (cl, m2, us2) =>
        some (freshHeader name (lookupD m name) et il ++
          (indentStr il ++ "Shards:") :: cl ++ ["\n"], m2, us2)) ∧
    (∀ (f : Nat) (c : Name) (cs : List Name) (mm : AggMap) (ill : Nat)
        (uu : List Name),
      print_children (f + 1) (c :: cs) mm ill uu =
        match print_container f c mm "SHARD" ill (some uu) with
        | none => none
        | some (o1, m1, u1) =>
          match print_children f cs m1 ill u1 with
          | none => none
          | some (o2, m2, u2) => some (o1 ++ o2, m2, u2)) :=
  ⟨collectShardNames_nodup _,
   fun _ => mem_collectShardNames.trans mem_entryShardNames,
   print_container_fresh h fuel m et il,
   fun f c cs mm ill uu => print_children_cons f c cs mm ill uu⟩

theorem claim_c5_witness :
    ("a/r" ∉ localUsed (none : Option (List Name))) ∧
    ((collectShardNames (lookupD mW "a/r")).Nodup ∧
    (∀ c, c ∈ collectShardNames (lookupD mW "a/r") ↔
      ∃ nb ∈ lookupD mW "a/r", ∃ sr ∈ nb.2.shard_ranges, sr.name = c) ∧
    (print_container 1 "a/r" mW "SHARD" 0 none =
      match print_children 0 (collectShardNames (lookupD mW "a/r"))
          (ddGet mW "a/r").2 1 ("a/r" :: localUsed none) with
      | none => none
      | some (cl, m2, us2) =>
        some (freshHeader "a/r" (lookupD mW "a/r") "SHARD" 0 ++
          (indentStr 0 ++ "Shards:") :: cl ++ ["\n"], m2, us2)) ∧
    (∀ (f : Nat) (c : Name) (cs : List Name) (mm : AggMap) (ill : Nat)
        (uu : List Name),
      print_children (f + 1) (c :: cs) mm ill uu =
        match print_container f c mm "SHARD" ill (some uu) with
        | none => none
        | some (o1, m1, u1) =>
          match print_children f cs m1 ill u1 with
          | none => none
          | some (o2, m2, u2) => some (o1 ++ o2, m2, u2))) :=
  ⟨by decide, claim_c5 0 mW "SHARD" 0 (by decide)⟩

/-- C6: for every replica's shard-range list, the rendered order is the
stable sort by the deleted flag: the rendered lines are exactly the sorted
list's lines (conjunct 1); the sorted list is a permutation of the input
(conjunct 2) in which every non-deleted range precedes every deleted one
(conjunct 3), and ranges with equal deleted flag keep their original relative
order (conjuncts 4 and 5). -/
theorem claim_c6 (node : Node) (srs : List ShardRange) (il : Nat) :
    print_shard_range_info node srs il =
      (sortByDeleted srs).map (fun sr => print_shard_range node sr il) ∧
    (sortByDeleted srs).Perm srs ∧
    (sortByDeleted srs).Pairwise
      (fun a b => a.deleted = true → b.deleted = true) ∧
    (sortByDeleted srs).filter (fun sr => !sr.deleted) =
      srs.filter (fun sr => !sr.deleted) ∧
    (sortByDeleted srs).filter (fun sr => sr.deleted) =
      srs.filter (fun sr => sr.deleted) :=
  ⟨rfl, sortByDeleted_perm srs, sortByDeleted_pairwise srs,
   sortByDeleted_filter_not srs, sortByDeleted_filter_del srs⟩

/-- C7: the driver's rendering loop is exactly the loop over the identities
with at least one root-claiming replica, each invoked at depth 0 with a fresh
visited set and expected type ROOT (that is what `renderRoots` does), in map
order; and `expect_root` holds iff some replica self-reports as root. -/
theorem claim_c7 (fuel : Nat) (m0 : AggMap) :
    run fuel m0 = renderRoots fuel (m0.filter (fun e => expectRoot e.2)) m0 ∧
    (∀ nbs : List (Node × Broker), expectRoot nbs = true ↔
      ∃ nb ∈ nbs, nb.2.is_root_container = true) :=
  ⟨runLoop_eq_renderRoots fuel m0 m0, expectRoot_iff⟩

/-- C8: a ring device whose container data directory does not exist locally
contributes no handles: collection leaves every `(identity, node)` slot for
that node id exactly as it was in the supplied map (first conjunct, under the
walker's contract that it only yields node ids from the directories it was
given), and removing the device from the ring entirely does not change the
result of collection at all (second conjunct) — nor does collection raise an
error (it is a total function). -/
theorem claim_c8 {env : CollectEnv} {d : Dev} (m : AggMap)
    (hws : WalkSound env) (hd : d ∈ env.devs)
    (hid : ∀ d' ∈ env.devs, d'.id = d.id →
      env.isDir (datadirOf env d') = false) :
    (∀ x, innerLookup (lookupD (collect_brokers env m).1 x) d.id =
      innerLookup (lookupD m x) d.id) ∧
    collect_brokers (eraseDev env d) m = collect_brokers env m := by
  constructor
  · intro x
    exact innerLookup_foldl_ne env.openBroker _ m x (walk_node_ne hws hid)
  · exact collect_brokers_erase m (hid d hd rfl)

theorem claim_c8_witness :
    WalkSound envW ∧ ((⟨"d0", 0⟩ : Dev) ∈ envW.devs) ∧
    (∀ d' ∈ envW.devs, d'.id = (⟨"d0", 0⟩ : Dev).id →
      envW.isDir (datadirOf envW d') = false) ∧
    ((∀ x, innerLookup (lookupD (collect_brokers envW mW).1 x)
        (⟨"d0", 0⟩ : Dev).id =
      innerLookup (lookupD mW x) (⟨"d0", 0⟩ : Dev).id) ∧
    collect_brokers (eraseDev envW ⟨"d0", 0⟩) mW = collect_brokers envW mW) :=
  ⟨fun dirs t ht => by simp [envW] at ht,
   by decide,
   fun d' hd' h => rfl,
   claim_c8 mW (fun dirs t ht => by simp [envW] at ht) (by decide)
     (fun d' hd' h => rfl)⟩

/-- C9: whatever the configuration environment and the supplied map,
`collect_brokers` returns an empty mapping as its function value: the local
`brokers` dictionary is created but never written, so all discovered handles
end up only in the supplied map argument. -/
theorem claim_c9 (env : CollectEnv) (m : AggMap) :
    (collect_brokers env m).2 = [] := rfl

/-- C10: invoking the Renderer with an explicitly supplied empty visited set
behaves exactly as invoking it with no set at all: `used_names or set()`
discards the falsy empty set and rebinds the local name to a fresh set, so
every identity visited during the call is recorded in the fresh set (the one
the call returns), and nothing is ever added to the caller's empty set. -/
theorem claim_c10 (fuel : Nat) (name : Name) (m : AggMap) (et : String)
    (il : Nat) :
    print_container fuel name m et il (some []) =
      print_container fuel name m et il none := by
  cases fuel with
  | zero => rfl
  | succ f => rfl

end ShardInfo
